import Mathlib

/-!
Verification of `analyze_timing.py`, a script that parses timing files
(`start_time_sec=<int>`, `start_time_nsec=<int>`), aggregates per-experiment
statistics (count, min, max, spread, sample standard deviation with ddof=1)
and emits sorted reports and box-plot data.

Modelling conventions:
* File contents are `List Char`; file and directory names are `String`.
* Python floats are modelled as exact rationals `ℚ`.  The one reachable IEEE
  NaN (np.std with ddof=1 on a single sample, a 0/0 division) is modelled by
  `Option ℚ` with `none` standing for NaN; since `np.std` returns a square
  root, which is irrational for general rational radicands, the embedding
  stores the exact radicand (the ddof-adjusted variance) and theorems relate
  it through `Real.sqrt` where the spec speaks of the standard deviation.
* The regex `\d` is modelled as the ASCII digit class `Char.isDigit`, and
  `re.search` as leftmost search for the pattern.
-/

/-- Numeric value of a run of ASCII digit characters, as Python `int()` reads
a digit string. -/
def digitsToNat (ds : List Char) : ℕ :=
  ds.foldl (fun a c => 10 * a + (c.toNat - 48)) 0

/-- The literal part of the regex `start_time_sec=(\d+)`. -/
def secKey : List Char :=
  ['s', 't', 'a', 'r', 't', '_', 't', 'i', 'm', 'e', '_', 's', 'e', 'c', '=']

/-- The literal part of the regex `start_time_nsec=(\d+)`. -/
def nsecKey : List Char :=
  ['s', 't', 'a', 'r', 't', '_', 't', 'i', 'm', 'e', '_', 'n', 's', 'e', 'c', '=']

/-- Attempt to match `key` followed by at least one digit at the head of
`cs`; on success return the maximal (greedy `\d+`) digit run. -/
def matchAt (key cs : List Char) : Option (List Char) :=
  if key.isPrefixOf cs then
    match (cs.drop key.length).takeWhile Char.isDigit with
    | [] => none
    | d :: ds => some (d :: ds)
  else none

/-- Model of `re.search` for a pattern `key(\d+)`: try each start position
left to right and return the first full match's captured digit run. -/
def reSearch (key : List Char) : List Char → Option (List Char)
  | [] => matchAt key []
  | c :: cs =>
    match matchAt key (c :: cs) with
    | some ds => some ds
    | none => reSearch key cs

/-- Model of `parse_timing_file`: extract both fields and convert to
milliseconds, `sec * 1000 + nsec / 1_000_000`; `none` when either regex
fails to match. -/
def parse_timing_file (content : List Char) : Option ℚ :=
  match reSearch secKey content, reSearch nsecKey content with
  | some sds, some nds =>
      some ((digitsToNat sds : ℚ) * 1000 + (digitsToNat nds : ℚ) / 1000000)
  | _, _ => none

/-- A canonical well-formed timing file content holding both fields, one per
line, with the given digit runs as values. -/
def mkContent (ds1 ds2 : List Char) : List Char :=
  secKey ++ ds1 ++ ['\n'] ++ nsecKey ++ ds2 ++ ['\n']

/-- The field `key=<int>` occurs in `cs`: somewhere in `cs` the literal `key`
is immediately followed by at least one digit. -/
def FieldPresent (key cs : List Char) : Prop :=
  ∃ pre d suf, cs = pre ++ key ++ d :: suf ∧ d.isDigit = true

/-- A file of an experiment directory: its name and its text content. -/
structure TFile where
  name : String
  content : List Char
deriving DecidableEq

/-- The fixed part before the `*` of the glob `timing-*.txt`. -/
def timingGlobPre : List Char := ['t', 'i', 'm', 'i', 'n', 'g', '-']

/-- The fixed part after the `*` of the glob `timing-*.txt`. -/
def timingGlobSuf : List Char := ['.', 't', 'x', 't']

/-- `exp_dir.glob("timing-*.txt")` name test: the name is
`timing-` ++ anything ++ `.txt`. -/
def matchesTimingGlob (s : String) : Bool :=
  timingGlobPre.isPrefixOf s.data && timingGlobSuf.isSuffixOf (s.data.drop 7)

/-- The `times_ms` list built by `analyze_experiment`: parse every file the
glob matches and keep the successfully parsed times, in file order. -/
def timesOf (files : List TFile) : List ℚ :=
  (files.filter fun f => matchesTimingGlob f.name).filterMap
    fun f => parse_timing_file f.content

/-- Model of `np.max` on a list (errors on empty input in numpy; the code
guards against that, so the `[]` default is never used). -/
def npMax : List ℚ → ℚ
  | [] => 0
  | x :: xs => xs.foldl max x

/-- Model of `np.min` on a list (same guard note as `npMax`). -/
def npMin : List ℚ → ℚ
  | [] => 0
  | x :: xs => xs.foldl min x

/-- Model of the square of `np.std(xs, ddof)`: numpy computes the mean as
`sum / n` and divides the summed squared deviations by `n - ddof`.  `np.std`
returns the square root of this quantity, which is irrational for general
rational inputs, so the embedding keeps the exact radicand.  `none` models
the float result not being an ordinary number: when `n - ddof = 0` the only
reachable case in this program is the 0/0 division giving IEEE NaN (every
call has `ddof = 1`, so `n - ddof = 0` forces a single sample whose squared
deviation from its own mean is 0). -/
def npStdSq (ddof : ℕ) (xs : List ℚ) : Option ℚ :=
  if (xs.length : ℤ) - ddof ≤ 0 then none
  else some ((xs.map fun x => (x - xs.sum / xs.length) ^ 2).sum /
    ((xs.length : ℚ) - ddof))

/-- The per-experiment statistics dictionary built by `analyze_experiment`;
`std_sq` holds the square of the reported `std` (see `npStdSq`). -/
structure Stats where
  times_ms : List ℚ
  max_spread : ℚ
  std_sq : Option ℚ
  min : ℚ
  max : ℚ
  count : ℕ
deriving DecidableEq

/-- Model of `analyze_experiment`: collect times of the glob-matched files,
return `none` if no file parsed, else the statistics dictionary. -/
def analyze_experiment (files : List TFile) : Option Stats :=
  let times_ms := timesOf files
  if times_ms.isEmpty then none
  else some
    { times_ms := times_ms
      max_spread := npMax times_ms - npMin times_ms
      std_sq := npStdSq 1 times_ms
      min := npMin times_ms
      max := npMax times_ms
      count := times_ms.length }

/-- Written from the spec's words: the sample variance with Bessel's
correction, `(sum of squared deviations from the mean) / (n - 1)`; the spec's
sample standard deviation is its square root. -/
def sampleVarianceSpec (xs : List ℚ) : ℚ :=
  (xs.map fun x => (x - xs.sum / xs.length) ^ 2).sum / ((xs.length : ℚ) - 1)

/-- An entry of a group directory: an experiment directory candidate (or a
plain file, when `isDir` is false). -/
structure ExpEntry where
  name : String
  isDir : Bool
  files : List TFile
deriving DecidableEq

/-- An entry of the results root: an experiment-group directory candidate. -/
structure GroupEntry where
  name : String
  isDir : Bool
  entries : List ExpEntry
deriving DecidableEq

/-- The prefix test `exp_dir.name.startswith('exp')`. -/
def startsWithExp (s : String) : Bool :=
  ['e', 'x', 'p'].isPrefixOf s.data

/-- `sorted(exp_group_dir.iterdir())`: entries in name order (Python sorts
paths sharing a parent by their final component). -/
def sortedEntries (g : GroupEntry) : List ExpEntry :=
  g.entries.insertionSort fun a b => a.name ≤ b.name

/-- `sorted(RESULTS_DIR.iterdir())`: group entries in name order. -/
def sortedGroups (root : List GroupEntry) : List GroupEntry :=
  root.insertionSort fun a b => a.name ≤ b.name

instance : IsTotal GroupEntry fun a b => a.name ≤ b.name :=
  ⟨fun a b => le_total a.name b.name⟩

instance : IsTrans GroupEntry fun a b => a.name ≤ b.name :=
  ⟨fun _ _ _ h1 h2 => le_trans h1 h2⟩

instance : IsTotal ExpEntry fun a b => a.name ≤ b.name :=
  ⟨fun a b => le_total a.name b.name⟩

instance : IsTrans ExpEntry fun a b => a.name ≤ b.name :=
  ⟨fun _ _ _ h1 h2 => le_trans h1 h2⟩

/-- The body of the inner loop of `main`: skip an entry that is not a
directory or whose name does not start with `exp`, analyze the rest, and
record name and stats when the analysis reports something. -/
def expStep (e : ExpEntry) : Option (String × Stats) :=
  if e.isDir && startsWithExp e.name then
    (analyze_experiment e.files).map fun st => (e.name, st)
  else none

/-- The experiments recorded for one group directory: directories whose name
starts with `exp`, in sorted order, keeping those `analyze_experiment`
accepts, keyed by experiment name. -/
def expsOf (g : GroupEntry) : List (String × Stats) :=
  (sortedEntries g).filterMap expStep

/-- The body of the outer loop of `main`: skip non-directories; a group whose
dictionary stayed empty (the `defaultdict` entry is only materialised on the
first recorded experiment) never becomes a key of `all_experiments`. -/
def groupStep (g : GroupEntry) : Option (String × List (String × Stats)) :=
  if g.isDir then
    if (expsOf g).isEmpty then none else some (g.name, expsOf g)
  else none

/-- The final `all_experiments` mapping, as the sorted association list the
output loops iterate over. -/
def allExperiments (root : List GroupEntry) : List (String × List (String × Stats)) :=
  (sortedGroups root).filterMap groupStep

/-- Group-header / experiment-name sequence of
`individual_experiment_stats.txt`. -/
def reportSeq (root : List GroupEntry) : List (String × List String) :=
  (allExperiments root).map fun g => (g.1, g.2.map Prod.fst)

/-- The box plots' x-axis label sequence (built once during the max-spread
plot and reused verbatim for the std plot). -/
def plotLabels (root : List GroupEntry) : List String :=
  (allExperiments root).map Prod.fst

/-- Per-group `max_spread` samples fed to the first box plot. -/
def spreadData (root : List GroupEntry) : List (List ℚ) :=
  (allExperiments root).map fun g => g.2.map fun p => p.2.max_spread

/-- Per-group `std` samples fed to the second box plot (squared-radicand
representation, see `npStdSq`). -/
def stdData (root : List GroupEntry) : List (List (Option ℚ)) :=
  (allExperiments root).map fun g => g.2.map fun p => p.2.std_sq

/-- Group sequence of `summary_stats.txt` (its own `sorted(...)` loop). -/
def summaryGroups (root : List GroupEntry) : List String :=
  (allExperiments root).map Prod.fst

/-- What `open(file_path, 'r')` followed by `f.read()` meets at a
glob-matched entry of an experiment directory: a readable UTF-8 text file, a
file whose bytes do not decode as UTF-8, or a subdirectory whose name also
matches the glob. -/
inductive FContent where
  | text (cs : List Char)
  | binary
  | subdir
deriving DecidableEq

/-- The two uncaught exceptions the unguarded `open()`/`read()` of
`parse_timing_file` can raise: `IsADirectoryError` when the glob-matched
entry is a subdirectory, `UnicodeDecodeError` when its bytes are not
UTF-8. -/
inductive ReadError where
  | isADirectory
  | unicodeDecode
deriving DecidableEq

/-- A raw entry of an experiment directory, as `exp_dir.glob` yields it:
name plus the read outcome of its content. -/
structure FEntry where
  name : String
  content : FContent
deriving DecidableEq

/-- Model of `open(file_path, 'r')` + `f.read()` on a raw entry. -/
def readEntry : FContent → Except ReadError (List Char)
  | .text cs => .ok cs
  | .binary => .error .unicodeDecode
  | .subdir => .error .isADirectory

/-- The collection loop of `analyze_experiment` over raw entries, with the
exception path: the first glob-matched entry whose read raises aborts the
whole run (the raised error propagates out of `main`, there is no handler);
otherwise successfully parsed times are collected in entry order. -/
def timesOfRun : List FEntry → Except ReadError (List ℚ)
  | [] => .ok []
  | e :: es =>
    if matchesTimingGlob e.name then
      match readEntry e.content with
      | .error err => .error err
      | .ok cs =>
        match timesOfRun es with
        | .error err => .error err
        | .ok ts =>
          .ok (match parse_timing_file cs with
            | some t => t :: ts
            | none => ts)
    else timesOfRun es

/-- `analyze_experiment` on raw entries: either the uncaught exception, or
the statistics of the collected times (`none` when no file parsed). -/
def analyze_experiment_run (entries : List FEntry) : Except ReadError (Option Stats) :=
  (timesOfRun entries).map fun times_ms =>
    if times_ms.isEmpty then none
    else some
      { times_ms := times_ms
        max_spread := npMax times_ms - npMin times_ms
        std_sq := npStdSq 1 times_ms
        min := npMin times_ms
        max := npMax times_ms
        count := times_ms.length }

/-- The readable text files among raw entries, as plain `TFile`s: on a tree
with no faulting entry this is what the content-level model `timesOf`
sees. -/
def asTFiles (entries : List FEntry) : List TFile :=
  entries.filterMap fun e =>
    match e.content with
    | .text cs => some ⟨e.name, cs⟩
    | _ => none

/-- A decidable certificate that `key` can never be a prefix of any list
extending `pre`: the two disagree at some common position. -/
def hasMismatch (key pre : List Char) : Bool :=
  (key.zip pre).any fun p => p.1 != p.2

lemma isPrefixOf_append_eq_false_of_hasMismatch (key pre tail : List Char)
    (h : hasMismatch key pre = true) : key.isPrefixOf (pre ++ tail) = false := by
  induction key generalizing pre with
  | nil => simp [hasMismatch] at h
  | cons k kt ih =>
    cases pre with
    | nil => simp [hasMismatch] at h
    | cons p pt =>
      simp only [hasMismatch, List.zip_cons_cons, List.any_cons,
        Bool.or_eq_true, bne_iff_ne, ne_eq] at h
      simp only [List.cons_append, List.isPrefixOf, Bool.and_eq_false_iff]
      rcases h with h | h
      · exact Or.inl (by simpa using h)
      · exact Or.inr (ih pt h)

lemma matchAt_append_none_of_hasMismatch (key pre tail : List Char)
    (h : hasMismatch key pre = true) : matchAt key (pre ++ tail) = none := by
  simp [matchAt, isPrefixOf_append_eq_false_of_hasMismatch key pre tail h]

lemma reSearch_cons_of_none (key : List Char) (c : Char) (cs : List Char)
    (h : matchAt key (c :: cs) = none) :
    reSearch key (c :: cs) = reSearch key cs := by
  simp [reSearch, h]

lemma reSearch_append_skip (key pre tail : List Char)
    (h : ∀ p, p < pre.length → matchAt key (pre.drop p ++ tail) = none) :
    reSearch key (pre ++ tail) = reSearch key tail := by
  induction pre with
  | nil => rfl
  | cons c cs ih =>
    rw [List.cons_append,
      reSearch_cons_of_none key c (cs ++ tail)
        (by simpa using h 0 (Nat.succ_pos _))]
    exact ih fun p hp => by simpa using h (p + 1) (Nat.succ_lt_succ hp)

lemma reSearch_skip_concrete (key pre tail : List Char)
    (h : ∀ p, p < pre.length → hasMismatch key (pre.drop p) = true) :
    reSearch key (pre ++ tail) = reSearch key tail :=
  reSearch_append_skip key pre tail fun p hp =>
    matchAt_append_none_of_hasMismatch key (pre.drop p) tail (h p hp)

lemma reSearch_digits_skip (key ds tail : List Char) (hne : key ≠ [])
    (hk : (key.headD ' ').isDigit = false)
    (hds : ∀ c ∈ ds, c.isDigit = true) :
    reSearch key (ds ++ tail) = reSearch key tail := by
  obtain ⟨k, kt, rfl⟩ : ∃ k kt, key = k :: kt := by
    cases key with
    | nil => exact absurd rfl hne
    | cons k kt => exact ⟨k, kt, rfl⟩
  simp only [List.headD] at hk
  induction ds with
  | nil => rfl
  | cons d dt ih =>
    have hd : d.isDigit = true := hds d (by simp)
    have hkd : (k != d) = true := by
      simp only [bne_iff_ne, ne_eq]
      rintro rfl
      rw [hd] at hk
      cases hk
    have hmm : hasMismatch (k :: kt) [d] = true := by
      simp [hasMismatch, hkd]
    have hnone : matchAt (k :: kt) (d :: (dt ++ tail)) = none := by
      simpa using
        matchAt_append_none_of_hasMismatch (k :: kt) [d] (dt ++ tail) hmm
    rw [List.cons_append, reSearch_cons_of_none _ _ _ hnone]
    exact ih fun c hc => hds c (by simp [hc])

lemma isPrefixOf_append_self (as bs : List Char) :
    as.isPrefixOf (as ++ bs) = true := by
  induction as with
  | nil => simp [List.isPrefixOf]
  | cons a at' ih => simp [List.isPrefixOf, ih]

lemma takeWhile_append_of_all (p : Char → Bool) (xs ys : List Char)
    (h : ∀ x ∈ xs, p x = true) :
    (xs ++ ys).takeWhile p = xs ++ ys.takeWhile p := by
  induction xs with
  | nil => rfl
  | cons x xt ih =>
    simp [List.takeWhile_cons, h x (by simp),
      ih fun a ha => h a (by simp [ha])]

lemma matchAt_self_digits (key ds tail : List Char) (hne : ds ≠ [])
    (hds : ∀ c ∈ ds, c.isDigit = true)
    (htail : tail.takeWhile Char.isDigit = []) :
    matchAt key (key ++ (ds ++ tail)) = some ds := by
  simp only [matchAt, isPrefixOf_append_self, if_true, List.drop_left,
    takeWhile_append_of_all Char.isDigit ds tail hds, htail, List.append_nil]
  cases ds with
  | nil => exact absurd rfl hne
  | cons d dt => rfl

lemma reSearch_of_matchAt_some (key cs ds : List Char)
    (h : matchAt key cs = some ds) : reSearch key cs = some ds := by
  cases cs with
  | nil => simpa [reSearch] using h
  | cons c ct => simp [reSearch, h]

lemma reSearch_sec_mkContent (ds1 ds2 : List Char) (h1 : ds1 ≠ [])
    (hd1 : ∀ c ∈ ds1, c.isDigit = true) :
    reSearch secKey (mkContent ds1 ds2) = some ds1 := by
  apply reSearch_of_matchAt_some
  have e : mkContent ds1 ds2 =
      secKey ++ (ds1 ++ ('\n' :: (nsecKey ++ (ds2 ++ ['\n'])))) := by
    simp [mkContent]
  rw [e]
  exact matchAt_self_digits secKey ds1 _ h1 hd1
    (List.takeWhile_cons_of_neg (by decide))

lemma reSearch_nsec_mkContent (ds1 ds2 : List Char) (h2 : ds2 ≠ [])
    (hd1 : ∀ c ∈ ds1, c.isDigit = true)
    (hd2 : ∀ c ∈ ds2, c.isDigit = true) :
    reSearch nsecKey (mkContent ds1 ds2) = some ds2 := by
  have e : mkContent ds1 ds2 =
      secKey ++ (ds1 ++ (['\n'] ++ (nsecKey ++ (ds2 ++ ['\n'])))) := by
    simp [mkContent]
  rw [e]
  rw [reSearch_skip_concrete nsecKey secKey _ (by decide)]
  rw [reSearch_digits_skip nsecKey ds1 _ (by decide) (by decide) hd1]
  rw [reSearch_skip_concrete nsecKey ['\n'] _ (by decide)]
  exact reSearch_of_matchAt_some _ _ _
    (matchAt_self_digits nsecKey ds2 _ h2 hd2
      (List.takeWhile_cons_of_neg (by decide)))

/-- Claim C1: for a file content holding both fields `start_time_sec=` and
`start_time_nsec=` with non-negative integer values (arbitrary digit runs
`ds1`, `ds2`), `parse_timing_file` returns `sec * 1000 + nsec / 1e6`
milliseconds. -/
theorem parse_ms_of_wellformed (ds1 ds2 : List Char) (h1 : ds1 ≠ [])
    (h2 : ds2 ≠ []) (hd1 : ∀ c ∈ ds1, c.isDigit = true)
    (hd2 : ∀ c ∈ ds2, c.isDigit = true) :
    parse_timing_file (mkContent ds1 ds2) =
      some ((digitsToNat ds1 : ℚ) * 1000 + (digitsToNat ds2 : ℚ) / 1000000) := by
  unfold parse_timing_file
  rw [reSearch_sec_mkContent ds1 ds2 h1 hd1,
    reSearch_nsec_mkContent ds1 ds2 h2 hd1 hd2]

/-- Witness for C1: the spec's example, `sec=100`, `nsec=500000000`, parses
to `100500.0` ms. -/
theorem parse_ms_of_wellformed_witness :
    parse_timing_file (mkContent ['1', '0', '0']
      ['5', '0', '0', '0', '0', '0', '0', '0', '0']) = some (100500 : ℚ) := by
  have e1 : digitsToNat ['1', '0', '0'] = 100 := by decide
  have e2 : digitsToNat ['5', '0', '0', '0', '0', '0', '0', '0', '0']
      = 500000000 := by decide
  rw [parse_ms_of_wellformed ['1', '0', '0']
    ['5', '0', '0', '0', '0', '0', '0', '0', '0']
    (by decide) (by decide) (by decide) (by decide), e1, e2]
  norm_num

lemma isPrefixOf_eq_true_iff (as bs : List Char) :
    as.isPrefixOf bs = true ↔ ∃ t, bs = as ++ t := by
  induction as generalizing bs with
  | nil => simp [List.isPrefixOf]
  | cons a at' ih =>
    cases bs with
    | nil => simp [List.isPrefixOf]
    | cons b bt =>
      simp only [List.isPrefixOf, Bool.and_eq_true, beq_iff_eq, ih,
        List.cons_append, List.cons.injEq]
      constructor
      · rintro ⟨rfl, t, rfl⟩
        exact ⟨t, rfl, rfl⟩
      · rintro ⟨t, rfl, rfl⟩
        exact ⟨rfl, t, rfl⟩

lemma matchAt_append_digit (key : List Char) (d : Char) (suf : List Char)
    (hd : d.isDigit = true) :
    ∃ r, matchAt key (key ++ d :: suf) = some (d :: r) := by
  simp only [matchAt, isPrefixOf_append_self, if_true, List.drop_left,
    List.takeWhile_cons_of_pos hd]
  exact ⟨suf.takeWhile Char.isDigit, rfl⟩

lemma matchAt_eq_none_iff (key cs : List Char) :
    matchAt key cs = none ↔
      ¬ ∃ d suf, cs = key ++ d :: suf ∧ d.isDigit = true := by
  by_cases hp : key.isPrefixOf cs = true
  · obtain ⟨t, rfl⟩ := (isPrefixOf_eq_true_iff key cs).mp hp
    cases t with
    | nil =>
      simp only [matchAt, isPrefixOf_append_self, if_true, List.drop_left,
        List.takeWhile_nil, List.append_nil]
      simp
    | cons x xs =>
      by_cases hx : x.isDigit = true
      · obtain ⟨r, hr⟩ := matchAt_append_digit key x xs hx
        rw [hr]
        simp only [reduceCtorEq, false_iff, not_not]
        exact ⟨x, xs, rfl, hx⟩
      · have hnone : matchAt key (key ++ x :: xs) = none := by
          simp only [matchAt, isPrefixOf_append_self, if_true, List.drop_left,
            List.takeWhile_cons_of_neg hx]
        rw [hnone]
        simp only [true_iff]
        rintro ⟨d, suf, heq, hd⟩
        have h2 : x :: xs = d :: suf := by
          have := heq
          rwa [List.append_right_inj] at this
        injection h2 with h3 h4
        rw [← h3] at hd
        exact hx hd
  · have hnone : matchAt key cs = none := by
      unfold matchAt
      rw [if_neg hp]
    rw [hnone]
    simp only [true_iff]
    rintro ⟨d, suf, rfl, hd⟩
    exact hp (isPrefixOf_append_self key (d :: suf))

lemma fieldPresent_cons_iff (key : List Char) (c : Char) (cs : List Char) :
    FieldPresent key (c :: cs) ↔
      (∃ d suf, c :: cs = key ++ d :: suf ∧ d.isDigit = true) ∨
        FieldPresent key cs := by
  constructor
  · rintro ⟨pre, d, suf, heq, hd⟩
    cases pre with
    | nil => exact Or.inl ⟨d, suf, by simpa using heq, hd⟩
    | cons p pt =>
      right
      simp only [List.cons_append, List.cons.injEq] at heq
      exact ⟨pt, d, suf, heq.2, hd⟩
  · rintro (⟨d, suf, heq, hd⟩ | ⟨pre, d, suf, heq, hd⟩)
    · exact ⟨[], d, suf, by simpa using heq, hd⟩
    · exact ⟨c :: pre, d, suf, by simp [heq], hd⟩

lemma reSearch_eq_none_iff (key cs : List Char) (hk : key ≠ []) :
    reSearch key cs = none ↔ ¬ FieldPresent key cs := by
  induction cs with
  | nil =>
    obtain ⟨k, kt, rfl⟩ : ∃ k kt, key = k :: kt := by
      cases key with
      | nil => exact absurd rfl hk
      | cons k kt => exact ⟨k, kt, rfl⟩
    constructor
    · rintro h ⟨pre, d, suf, heq, hd⟩
      have : ([] : List Char).length = (pre ++ (k :: kt) ++ d :: suf).length :=
        congrArg List.length heq
      simp at this
      omega
    · intro h
      simp [reSearch, matchAt, List.isPrefixOf]
  | cons c ct ih =>
    cases hm : matchAt key (c :: ct) with
    | some ds =>
      have hex : ∃ d suf, c :: ct = key ++ d :: suf ∧ d.isDigit = true := by
        by_contra hno
        exact absurd ((matchAt_eq_none_iff key (c :: ct)).mpr hno)
          (by simp [hm])
      constructor
      · intro h
        rw [reSearch, hm] at h
        cases h
      · intro h
        exfalso
        apply h
        obtain ⟨d, suf, heq, hd⟩ := hex
        exact ⟨[], d, suf, by simpa using heq, hd⟩
    | none =>
      rw [reSearch_cons_of_none key c ct hm, ih, fieldPresent_cons_iff]
      have hno := (matchAt_eq_none_iff key (c :: ct)).mp hm
      constructor
      · intro h hor
        rcases hor with hA | hB
        · exact hno hA
        · exact h hB
      · intro h hB
        exact h (Or.inr hB)

lemma timesOf_skip (pre suf : List TFile) (f : TFile)
    (h : parse_timing_file f.content = none) :
    timesOf (pre ++ f :: suf) = timesOf (pre ++ suf) := by
  unfold timesOf
  rw [List.filter_append, List.filter_append, List.filterMap_append,
    List.filterMap_append]
  congr 1
  cases hg : matchesTimingGlob f.name with
  | false => simp [List.filter_cons, hg]
  | true => simp [List.filter_cons, hg, List.filterMap_cons, h]

/-- Claim C5: `parse_timing_file` returns `none` exactly when at least one of
the two fields `start_time_sec=<int>`, `start_time_nsec=<int>` is absent from
the content, and the caller then records nothing for that file: removing such
a file from an experiment directory leaves the collected times unchanged. -/
theorem parse_none_iff_field_absent :
    (∀ cs, parse_timing_file cs = none ↔
      ¬ FieldPresent secKey cs ∨ ¬ FieldPresent nsecKey cs)
    ∧ ∀ (pre suf : List TFile) (f : TFile),
        parse_timing_file f.content = none →
        timesOf (pre ++ f :: suf) = timesOf (pre ++ suf) := by
  constructor
  · intro cs
    unfold parse_timing_file
    cases h1 : reSearch secKey cs with
    | none =>
      simp only [true_iff]
      exact Or.inl ((reSearch_eq_none_iff secKey cs (by decide)).mp h1)
    | some s1 =>
      cases h2 : reSearch nsecKey cs with
      | none =>
        simp only [true_iff]
        exact Or.inr ((reSearch_eq_none_iff nsecKey cs (by decide)).mp h2)
      | some s2 =>
        simp only [reduceCtorEq, false_iff, not_or, not_not]
        constructor
        · by_contra hno
          exact absurd ((reSearch_eq_none_iff secKey cs (by decide)).mpr hno)
            (by simp [h1])
        · by_contra hno
          exact absurd ((reSearch_eq_none_iff nsecKey cs (by decide)).mpr hno)
            (by simp [h2])
  · exact timesOf_skip

/-- Witness for C5: a file whose content lacks both fields is skipped and
contributes nothing to the collected times. -/
theorem parse_none_iff_field_absent_witness :
    timesOf ([⟨"timing-0.txt", ['x']⟩] ++ (⟨"timing-1.txt", ['y']⟩ : TFile) :: []) =
      timesOf ([⟨"timing-0.txt", ['x']⟩] ++ []) :=
  parse_none_iff_field_absent.2 [⟨"timing-0.txt", ['x']⟩] []
    ⟨"timing-1.txt", ['y']⟩ (by decide)

lemma foldl_max_mem (x : ℚ) (xs : List ℚ) : xs.foldl max x ∈ x :: xs := by
  induction xs generalizing x with
  | nil => simp
  | cons y ys ih =>
    rcases List.mem_cons.mp (ih (max x y)) with h1 | h1
    · rcases max_choice x y with h2 | h2 <;> rw [h2] at h1 <;>
        simp [List.foldl_cons, h2, h1]
    · simp [List.foldl_cons, List.mem_cons.mpr (Or.inr h1)]

lemma le_foldl_max (x : ℚ) (xs : List ℚ) : ∀ y ∈ x :: xs, y ≤ xs.foldl max x := by
  induction xs generalizing x with
  | nil =>
    intro y hy
    simp at hy
    simp [hy]
  | cons z zs ih =>
    intro y hy
    simp only [List.foldl_cons]
    rcases List.mem_cons.mp hy with rfl | hy2
    · exact le_trans (le_max_left y z) (ih (max y z) (max y z) (by simp))
    · rcases List.mem_cons.mp hy2 with rfl | hy3
      · exact le_trans (le_max_right x y) (ih (max x y) (max x y) (by simp))
      · exact ih (max x z) y (by simp [hy3])

lemma foldl_min_mem (x : ℚ) (xs : List ℚ) : xs.foldl min x ∈ x :: xs := by
  induction xs generalizing x with
  | nil => simp
  | cons y ys ih =>
    rcases List.mem_cons.mp (ih (min x y)) with h1 | h1
    · rcases min_choice x y with h2 | h2 <;> rw [h2] at h1 <;>
        simp [List.foldl_cons, h2, h1]
    · simp [List.foldl_cons, List.mem_cons.mpr (Or.inr h1)]

lemma foldl_min_le (x : ℚ) (xs : List ℚ) : ∀ y ∈ x :: xs, xs.foldl min x ≤ y := by
  induction xs generalizing x with
  | nil =>
    intro y hy
    simp at hy
    simp [hy]
  | cons z zs ih =>
    intro y hy
    simp only [List.foldl_cons]
    rcases List.mem_cons.mp hy with rfl | hy2
    · exact le_trans (ih (min y z) (min y z) (by simp)) (min_le_left y z)
    · rcases List.mem_cons.mp hy2 with rfl | hy3
      · exact le_trans (ih (min x y) (min x y) (by simp)) (min_le_right x y)
      · exact ih (min x z) y (by simp [hy3])

lemma analyze_experiment_eq_some_iff (files : List TFile) (st : Stats) :
    analyze_experiment files = some st ↔
      timesOf files ≠ [] ∧
      st = { times_ms := timesOf files
             max_spread := npMax (timesOf files) - npMin (timesOf files)
             std_sq := npStdSq 1 (timesOf files)
             min := npMin (timesOf files)
             max := npMax (timesOf files)
             count := (timesOf files).length } := by
  simp only [analyze_experiment]
  split
  · rename_i he
    simp only [List.isEmpty_iff] at he
    simp [he]
  · rename_i he
    simp only [List.isEmpty_iff] at he
    simp only [Option.some.injEq]
    constructor
    · intro h
      exact ⟨he, h.symm⟩
    · rintro ⟨h1, h2⟩
      exact h2.symm

/-- Claim C2: whenever `analyze_experiment` reports statistics, `max` is the
greatest collected time, `min` the least, and `max_spread` is exactly their
difference, i.e. `max(times) - min(times)`. -/
theorem max_spread_eq_max_sub_min (files : List TFile) (st : Stats)
    (h : analyze_experiment files = some st) :
    IsGreatest {x | x ∈ st.times_ms} st.max ∧
    IsLeast {x | x ∈ st.times_ms} st.min ∧
    st.max_spread = st.max - st.min := by
  obtain ⟨hne, rfl⟩ := (analyze_experiment_eq_some_iff files st).mp h
  obtain ⟨t, ts, hts⟩ : ∃ t ts, timesOf files = t :: ts := by
    cases hcase : timesOf files with
    | nil => exact absurd hcase hne
    | cons t ts => exact ⟨t, ts, rfl⟩
  simp only [hts, npMax, npMin]
  refine ⟨⟨foldl_max_mem t ts, fun y hy => le_foldl_max t ts y hy⟩,
    ⟨foldl_min_mem t ts, fun y hy => foldl_min_le t ts y hy⟩, ?_⟩
  trivial

lemma parse_sample1 : parse_timing_file (mkContent ['1'] ['0']) = some 1000 := by
  simp [parse_timing_file, reSearch, matchAt, mkContent, secKey, nsecKey,
    digitsToNat]

lemma parse_sample3 : parse_timing_file (mkContent ['3'] ['0']) = some 3000 := by
  simp [parse_timing_file, reSearch, matchAt, mkContent, secKey, nsecKey,
    digitsToNat]
  norm_num

lemma timesOf_sample :
    timesOf [⟨"timing-0.txt", mkContent ['1'] ['0']⟩,
      ⟨"timing-1.txt", mkContent ['3'] ['0']⟩] = [1000, 3000] := by
  have hg0 : matchesTimingGlob "timing-0.txt" = true := by decide
  have hg1 : matchesTimingGlob "timing-1.txt" = true := by decide
  simp [timesOf, List.filter_cons, List.filterMap_cons, hg0, hg1,
    parse_sample1, parse_sample3]

lemma npStdSq_sample : npStdSq 1 [1000, 3000] = some 2000000 := by
  simp only [npStdSq, List.length_cons, List.length_nil]
  rw [if_neg (by norm_num)]
  norm_num

lemma analyze_sample :
    analyze_experiment [⟨"timing-0.txt", mkContent ['1'] ['0']⟩,
      ⟨"timing-1.txt", mkContent ['3'] ['0']⟩] =
      some ⟨[1000, 3000], 2000, some 2000000, 1000, 3000, 2⟩ := by
  rw [analyze_experiment_eq_some_iff]
  refine ⟨by simp [timesOf_sample], ?_⟩
  rw [timesOf_sample]
  have hmax : npMax [1000, 3000] = (3000 : ℚ) := by
    show (max (1000 : ℚ) 3000) = 3000
    exact max_eq_right (by norm_num)
  have hmin : npMin [1000, 3000] = (1000 : ℚ) := by
    show (min (1000 : ℚ) 3000) = 1000
    exact min_eq_left (by norm_num)
  simp [hmax, hmin, npStdSq_sample]
  norm_num

/-- Witness for C2 on a directory with two parsed times, 1000 ms and
3000 ms: max 3000, min 1000, spread 2000. -/
theorem max_spread_eq_max_sub_min_witness :
    IsGreatest {x | x ∈ (⟨[1000, 3000], 2000, some 2000000, 1000, 3000, 2⟩ :
        Stats).times_ms} (⟨[1000, 3000], 2000, some 2000000, 1000, 3000, 2⟩ :
        Stats).max ∧
    IsLeast {x | x ∈ (⟨[1000, 3000], 2000, some 2000000, 1000, 3000, 2⟩ :
        Stats).times_ms} (⟨[1000, 3000], 2000, some 2000000, 1000, 3000, 2⟩ :
        Stats).min ∧
    (⟨[1000, 3000], 2000, some 2000000, 1000, 3000, 2⟩ : Stats).max_spread =
      (⟨[1000, 3000], 2000, some 2000000, 1000, 3000, 2⟩ : Stats).max -
      (⟨[1000, 3000], 2000, some 2000000, 1000, 3000, 2⟩ : Stats).min :=
  max_spread_eq_max_sub_min
    [⟨"timing-0.txt", mkContent ['1'] ['0']⟩,
     ⟨"timing-1.txt", mkContent ['3'] ['0']⟩]
    ⟨[1000, 3000], 2000, some 2000000, 1000, 3000, 2⟩ analyze_sample

lemma npStdSq_one_eq_spec (xs : List ℚ) (h : 2 ≤ xs.length) :
    npStdSq 1 xs = some (sampleVarianceSpec xs) := by
  simp only [npStdSq, sampleVarianceSpec]
  rw [if_neg]
  · norm_num
  · push_cast
    omega

/-- Claim C3: with at least two collected times, the std reported by
`analyze_experiment` is `np.std` with `ddof=1`, i.e. the square root of the
Bessel-corrected sample variance (sum of squared deviations from the mean,
divided by `n - 1`): its stored radicand equals `sampleVarianceSpec`, and the
reported value is that radicand's square root. -/
theorem std_ddof1_eq_bessel (files : List TFile) (st : Stats)
    (h : analyze_experiment files = some st) (h2 : 2 ≤ st.times_ms.length) :
    st.std_sq = some (sampleVarianceSpec st.times_ms) ∧
    st.std_sq.map (fun q : ℚ => Real.sqrt (q : ℝ)) =
      some (Real.sqrt ((sampleVarianceSpec st.times_ms : ℚ) : ℝ)) := by
  obtain ⟨hne, rfl⟩ := (analyze_experiment_eq_some_iff files st).mp h
  have he : npStdSq 1 (timesOf files) = some (sampleVarianceSpec (timesOf files)) :=
    npStdSq_one_eq_spec (timesOf files) h2
  exact ⟨he, by show (npStdSq 1 (timesOf files)).map _ = _; rw [he]; rfl⟩

/-- Witness for C3 on the two-sample directory with times 1000 ms and
3000 ms. -/
theorem std_ddof1_eq_bessel_witness :
    (⟨[1000, 3000], 2000, some 2000000, 1000, 3000, 2⟩ : Stats).std_sq =
      some (sampleVarianceSpec
        (⟨[1000, 3000], 2000, some 2000000, 1000, 3000, 2⟩ : Stats).times_ms) :=
  (std_ddof1_eq_bessel
    [⟨"timing-0.txt", mkContent ['1'] ['0']⟩,
     ⟨"timing-1.txt", mkContent ['3'] ['0']⟩]
    ⟨[1000, 3000], 2000, some 2000000, 1000, 3000, 2⟩
    analyze_sample (by decide)).1

lemma expStep_eq_some_iff (e : ExpEntry) (p : String × Stats) :
    expStep e = some p ↔ e.isDir = true ∧ startsWithExp e.name = true ∧
      p.1 = e.name ∧ analyze_experiment e.files = some p.2 := by
  unfold expStep
  by_cases hcond : (e.isDir && startsWithExp e.name) = true
  · rw [if_pos hcond]
    rw [Bool.and_eq_true] at hcond
    cases hana : analyze_experiment e.files with
    | none =>
      constructor
      · intro h
        simp at h
      · rintro ⟨-, -, -, h⟩
        cases h
    | some st =>
      constructor
      · intro h
        simp only [Option.map_some', Option.some.injEq] at h
        subst h
        exact ⟨hcond.1, hcond.2, rfl, rfl⟩
      · obtain ⟨p1, p2⟩ := p
        rintro ⟨-, -, h1, h2⟩
        simp only at h1
        injection h2 with h3
        simp [h1, h3]
  · rw [if_neg hcond]
    rw [Bool.and_eq_true] at hcond
    constructor
    · intro h
      cases h
    · rintro ⟨h1, h2, -, -⟩
      exact absurd ⟨h1, h2⟩ hcond

lemma mem_expsOf_iff (g : GroupEntry) (p : String × Stats) :
    p ∈ expsOf g ↔ ∃ e ∈ g.entries, e.isDir = true ∧
      startsWithExp e.name = true ∧ p.1 = e.name ∧
      analyze_experiment e.files = some p.2 := by
  unfold expsOf sortedEntries
  rw [List.mem_filterMap]
  constructor
  · rintro ⟨e, hes, hsome⟩
    have hee : e ∈ g.entries :=
      (List.perm_insertionSort (fun a b : ExpEntry => a.name ≤ b.name)
        g.entries).mem_iff.mp hes
    obtain ⟨h1, h2, h3, h4⟩ := (expStep_eq_some_iff e p).mp hsome
    exact ⟨e, hee, h1, h2, h3, h4⟩
  · rintro ⟨e, hee, h1, h2, h3, h4⟩
    refine ⟨e, ?_, (expStep_eq_some_iff e p).mpr ⟨h1, h2, h3, h4⟩⟩
    exact (List.perm_insertionSort (fun a b : ExpEntry => a.name ≤ b.name)
      g.entries).mem_iff.mpr hee

lemma groupStep_eq_some_iff (g : GroupEntry)
    (q : String × List (String × Stats)) :
    groupStep g = some q ↔ g.isDir = true ∧ expsOf g ≠ [] ∧
      q = (g.name, expsOf g) := by
  unfold groupStep
  by_cases hd : g.isDir = true
  · rw [if_pos hd]
    by_cases hemp : (expsOf g).isEmpty = true
    · rw [if_pos hemp]
      rw [List.isEmpty_iff] at hemp
      constructor
      · intro h
        cases h
      · rintro ⟨-, h, -⟩
        exact absurd hemp h
    · rw [if_neg hemp]
      rw [List.isEmpty_iff] at hemp
      simp only [Option.some.injEq]
      constructor
      · rintro rfl
        exact ⟨hd, hemp, rfl⟩
      · rintro ⟨-, -, rfl⟩
        rfl
  · rw [if_neg hd]
    constructor
    · intro h
      cases h
    · rintro ⟨h1, -, -⟩
      exact absurd h1 hd

lemma mem_allExperiments_iff (root : List GroupEntry)
    (q : String × List (String × Stats)) :
    q ∈ allExperiments root ↔ ∃ g ∈ root, g.isDir = true ∧ expsOf g ≠ [] ∧
      q = (g.name, expsOf g) := by
  unfold allExperiments sortedGroups
  rw [List.mem_filterMap]
  constructor
  · rintro ⟨g, hgs, hsome⟩
    have hgg : g ∈ root :=
      (List.perm_insertionSort (fun a b : GroupEntry => a.name ≤ b.name)
        root).mem_iff.mp hgs
    obtain ⟨h1, h2, h3⟩ := (groupStep_eq_some_iff g q).mp hsome
    exact ⟨g, hgg, h1, h2, h3⟩
  · rintro ⟨g, hgg, h1, h2, h3⟩
    refine ⟨g, ?_, (groupStep_eq_some_iff g q).mpr ⟨h1, h2, h3⟩⟩
    exact (List.perm_insertionSort (fun a b : GroupEntry => a.name ≤ b.name)
      root).mem_iff.mpr hgg

lemma timesOf_single :
    timesOf [⟨"timing-0.txt", mkContent ['1'] ['0']⟩] = [1000] := by
  have hg0 : matchesTimingGlob "timing-0.txt" = true := by decide
  simp [timesOf, List.filter_cons, List.filterMap_cons, hg0, parse_sample1]

lemma npStdSq_singleton (t : ℚ) : npStdSq 1 [t] = none := by
  simp [npStdSq]

lemma analyze_singleton (files : List TFile) (t : ℚ)
    (ht : timesOf files = [t]) :
    analyze_experiment files = some ⟨[t], 0, none, t, t, 1⟩ := by
  rw [analyze_experiment_eq_some_iff]
  refine ⟨by simp [ht], ?_⟩
  rw [ht]
  simp [npMax, npMin, npStdSq_singleton]

/-- Claim C8: an experiment directory with exactly one successfully parsed
timing file is reported with `max_spread = 0` and a `std` that is not a
number (`none`, modelling the NaN from the `n - 1 = 0` divisor of ddof=1),
and the experiment is still included in the outputs. -/
theorem singleton_spread_zero_std_nan (root : List GroupEntry)
    (g : GroupEntry) (e : ExpEntry) (t : ℚ) (hg : g ∈ root)
    (hgd : g.isDir = true) (he : e ∈ g.entries) (hed : e.isDir = true)
    (hex : startsWithExp e.name = true) (ht : timesOf e.files = [t]) :
    analyze_experiment e.files = some ⟨[t], 0, none, t, t, 1⟩ ∧
      ∃ exps, (g.name, exps) ∈ allExperiments root ∧
        (e.name, (⟨[t], 0, none, t, t, 1⟩ : Stats)) ∈ exps := by
  have hana := analyze_singleton e.files t ht
  have hmem : (e.name, (⟨[t], 0, none, t, t, 1⟩ : Stats)) ∈ expsOf g :=
    (mem_expsOf_iff g (e.name, ⟨[t], 0, none, t, t, 1⟩)).mpr
      ⟨e, he, hed, hex, rfl, hana⟩
  refine ⟨hana, expsOf g, ?_, hmem⟩
  exact (mem_allExperiments_iff root (g.name, expsOf g)).mpr
    ⟨g, hg, hgd, List.ne_nil_of_mem hmem, rfl⟩

/-- Witness for C8: a group with a single experiment holding one parsable
timing file (1000 ms). -/
theorem singleton_spread_zero_std_nan_witness :
    analyze_experiment [⟨"timing-0.txt", mkContent ['1'] ['0']⟩] =
      some ⟨[1000], 0, none, 1000, 1000, 1⟩ ∧
    ∃ exps,
      ("groupA", exps) ∈ allExperiments
        [⟨"groupA", true,
          [⟨"exp1", true, [⟨"timing-0.txt", mkContent ['1'] ['0']⟩]⟩]⟩] ∧
      ("exp1", (⟨[1000], 0, none, 1000, 1000, 1⟩ : Stats)) ∈ exps :=
  singleton_spread_zero_std_nan
    [⟨"groupA", true,
      [⟨"exp1", true, [⟨"timing-0.txt", mkContent ['1'] ['0']⟩]⟩]⟩]
    ⟨"groupA", true, [⟨"exp1", true, [⟨"timing-0.txt", mkContent ['1'] ['0']⟩]⟩]⟩
    ⟨"exp1", true, [⟨"timing-0.txt", mkContent ['1'] ['0']⟩]⟩
    1000 (by simp) rfl (by simp) rfl (by decide) timesOf_single

lemma timesOf_eq_nil_of_fail (files : List TFile)
    (hfail : ∀ f ∈ files, matchesTimingGlob f.name = true →
      parse_timing_file f.content = none) : timesOf files = [] := by
  unfold timesOf
  rw [List.filterMap_eq_nil_iff]
  intro f hf
  have hmem := List.mem_filter.mp hf
  exact hfail f hmem.1 (by simpa using hmem.2)

/-- Claim C4: an experiment directory in which no timing file parses makes
`analyze_experiment` return `none`, and that experiment appears in none of
the outputs: its name is recorded under no group of `all_experiments`, the
source of the per-experiment report, the group summary and both box plots. -/
theorem empty_experiment_excluded (root : List GroupEntry) (g : GroupEntry)
    (e : ExpEntry) (hnd : (root.map GroupEntry.name).Nodup)
    (hge : (g.entries.map ExpEntry.name).Nodup) (hg : g ∈ root)
    (he : e ∈ g.entries)
    (hfail : ∀ f ∈ e.files, matchesTimingGlob f.name = true →
      parse_timing_file f.content = none) :
    analyze_experiment e.files = none ∧
      ∀ exps, (g.name, exps) ∈ allExperiments root →
        e.name ∉ exps.map Prod.fst := by
  have htimes : timesOf e.files = [] := timesOf_eq_nil_of_fail e.files hfail
  have hana : analyze_experiment e.files = none := by
    simp [analyze_experiment, htimes]
  refine ⟨hana, ?_⟩
  intro exps hmem hcontra
  obtain ⟨g', hg', hgd', hne', heq⟩ :=
    (mem_allExperiments_iff root (g.name, exps)).mp hmem
  rw [Prod.mk.injEq] at heq
  obtain ⟨hn, hexps⟩ := heq
  have hgg : g' = g := List.inj_on_of_nodup_map hnd hg' hg hn.symm
  subst hgg
  subst hexps
  obtain ⟨p, hp, hpe⟩ := List.mem_map.mp hcontra
  obtain ⟨e', he', hed', hes', hn', hana'⟩ := (mem_expsOf_iff g' p).mp hp
  have hee : e' = e := List.inj_on_of_nodup_map hge he' he (by rw [← hn', hpe])
  rw [hee, hana] at hana'
  cases hana'

/-- Witness for C4: a group whose only experiment directory holds a single
unparsable timing file. -/
theorem empty_experiment_excluded_witness :
    analyze_experiment [⟨"timing-7.txt", ['h', 'i']⟩] = none ∧
      ∀ exps,
        ("groupA", exps) ∈ allExperiments
          [⟨"groupA", true, [⟨"exp2", true, [⟨"timing-7.txt", ['h', 'i']⟩]⟩]⟩] →
        "exp2" ∉ exps.map Prod.fst :=
  empty_experiment_excluded
    [⟨"groupA", true, [⟨"exp2", true, [⟨"timing-7.txt", ['h', 'i']⟩]⟩]⟩]
    ⟨"groupA", true, [⟨"exp2", true, [⟨"timing-7.txt", ['h', 'i']⟩]⟩]⟩
    ⟨"exp2", true, [⟨"timing-7.txt", ['h', 'i']⟩]⟩
    (by decide) (by decide) (by simp) (by simp) (by decide)

lemma filter_idem {α : Type} (p : α → Bool) (l : List α) :
    (l.filter p).filter p = l.filter p := by
  induction l with
  | nil => rfl
  | cons a l ih =>
    cases h : p a <;> simp [List.filter_cons, h, ih]

lemma length_filterMap_eq_countP {α β : Type} (f : α → Option β) (l : List α) :
    (l.filterMap f).length = l.countP fun a => (f a).isSome := by
  induction l with
  | nil => rfl
  | cons a l ih =>
    cases hf : f a with
    | none => simp [List.filterMap_cons, hf, List.countP_cons, ih]
    | some b => simp [List.filterMap_cons, hf, List.countP_cons, ih]

lemma countP_filter_and {α : Type} (p q : α → Bool) (l : List α) :
    (l.filter q).countP p = l.countP fun a => q a && p a := by
  induction l with
  | nil => rfl
  | cons a l ih =>
    cases hq : q a <;> simp [List.filter_cons, hq, List.countP_cons, ih]

/-- Claim C6: `analyze_experiment` considers exactly the files matching the
glob `timing-*.txt` — dropping every non-matching file beforehand changes
nothing — and the reported count is the number of matching files that parse
successfully, not the number of files present. -/
theorem glob_filter_count :
    (∀ files, analyze_experiment files =
        analyze_experiment (files.filter fun f => matchesTimingGlob f.name)) ∧
    ∀ files st, analyze_experiment files = some st →
      st.count = files.countP fun f =>
        matchesTimingGlob f.name && (parse_timing_file f.content).isSome := by
  have key : ∀ files : List TFile,
      timesOf (files.filter fun f => matchesTimingGlob f.name) =
        timesOf files := by
    intro files
    unfold timesOf
    rw [filter_idem]
  constructor
  · intro files
    simp only [analyze_experiment, key]
  · intro files st h
    obtain ⟨hne, rfl⟩ := (analyze_experiment_eq_some_iff files st).mp h
    show (timesOf files).length = _
    unfold timesOf
    rw [length_filterMap_eq_countP, countP_filter_and]

/-- Witness for C6: in a directory with two matching parsable files the
reported count is the number of successfully parsed matching files. -/
theorem glob_filter_count_witness :
    (⟨[1000, 3000], 2000, some 2000000, 1000, 3000, 2⟩ : Stats).count =
      List.countP
        (fun f : TFile => matchesTimingGlob f.name &&
          (parse_timing_file f.content).isSome)
        [⟨"timing-0.txt", mkContent ['1'] ['0']⟩,
         ⟨"timing-1.txt", mkContent ['3'] ['0']⟩] :=
  glob_filter_count.2
    [⟨"timing-0.txt", mkContent ['1'] ['0']⟩,
     ⟨"timing-1.txt", mkContent ['3'] ['0']⟩]
    ⟨[1000, 3000], 2000, some 2000000, 1000, 3000, 2⟩ analyze_sample

/-- Counterexample to C7 as stated: on concrete input trees the analysis
does surface a fatal error — a subdirectory named `timing-0.txt` inside an
experiment directory makes the unguarded `open()` raise `IsADirectoryError`,
and a non-UTF-8 file named `timing-1.txt` makes `read()` raise
`UnicodeDecodeError`; neither is caught anywhere, so the run aborts instead
of skipping the entry. -/
theorem pipeline_fatal_error_counterexample :
    analyze_experiment_run [⟨"timing-0.txt", FContent.subdir⟩] =
      Except.error ReadError.isADirectory ∧
    analyze_experiment_run [⟨"timing-1.txt", FContent.binary⟩] =
      Except.error ReadError.unicodeDecode := by
  have hg0 : matchesTimingGlob "timing-0.txt" = true := by decide
  have hg1 : matchesTimingGlob "timing-1.txt" = true := by decide
  constructor <;>
    simp [analyze_experiment_run, timesOfRun, readEntry, Except.map, hg0, hg1]

lemma timesOfRun_eq_of_text (entries : List FEntry)
    (h : ∀ e ∈ entries, matchesTimingGlob e.name = true →
      ∃ cs, e.content = FContent.text cs) :
    timesOfRun entries = Except.ok (timesOf (asTFiles entries)) := by
  induction entries with
  | nil => rfl
  | cons e es ih =>
    have ih2 := ih fun a ha hg => h a (by simp [ha]) hg
    cases hg : matchesTimingGlob e.name with
    | false =>
      cases hc : e.content with
      | text cs =>
        simp [timesOfRun, hg, ih2, asTFiles, List.filterMap_cons, hc,
          timesOf, List.filter_cons]
      | binary =>
        simp [timesOfRun, hg, ih2, asTFiles, List.filterMap_cons, hc]
      | subdir =>
        simp [timesOfRun, hg, ih2, asTFiles, List.filterMap_cons, hc]
    | true =>
      obtain ⟨cs, hc⟩ := h e (by simp) hg
      rw [show timesOfRun (e :: es) = (if matchesTimingGlob e.name then
        match readEntry e.content with
        | .error err => .error err
        | .ok cs =>
          match timesOfRun es with
          | .error err => .error err
          | .ok ts =>
            .ok (match parse_timing_file cs with
              | some t => t :: ts
              | none => ts)
        else timesOfRun es) from rfl, if_pos hg, hc]
      rw [ih2]
      have hfiles : asTFiles (e :: es) = ⟨e.name, cs⟩ :: asTFiles es := by
        simp [asTFiles, List.filterMap_cons, hc]
      rw [hfiles]
      cases hp : parse_timing_file cs with
      | none =>
        simp [readEntry, timesOf, List.filter_cons, hg,
          List.filterMap_cons, hp]
      | some t =>
        simp [readEntry, timesOf, List.filter_cons, hg,
          List.filterMap_cons, hp]

/-- Claim C7 (amended): on an experiment directory whose glob-matched
entries are all readable UTF-8 text files, the run raises nothing and agrees
with the content-level model — unparsable files are skipped, an empty result
yields `none` — and the `none` branch never reaches the outputs: every
group listed in `all_experiments` (the source of report, summary and both
box plots) is non-empty and holds stats of non-empty time lists.  (As
stated, the no-fatal-error property is refuted by
`pipeline_fatal_error_counterexample`: a glob-matched subdirectory or
non-UTF-8 file aborts the run.) -/
theorem pipeline_no_error_on_text_tree :
    (∀ entries : List FEntry,
      (∀ e ∈ entries, matchesTimingGlob e.name = true →
        ∃ cs, e.content = FContent.text cs) →
      analyze_experiment_run entries =
        Except.ok (analyze_experiment (asTFiles entries))) ∧
    ∀ root : List GroupEntry, ∀ q ∈ allExperiments root, q.2 ≠ [] ∧
      ∀ p ∈ q.2, p.2.times_ms ≠ [] ∧ 1 ≤ p.2.count := by
  constructor
  · intro entries h
    unfold analyze_experiment_run
    rw [timesOfRun_eq_of_text entries h]
    rfl
  · intro root q hq
    obtain ⟨g, hg, hgd, hne, heq⟩ := (mem_allExperiments_iff root q).mp hq
    subst heq
    constructor
    · exact hne
    · intro p hp
      obtain ⟨e, he, hed, hes, hn, hana⟩ := (mem_expsOf_iff g p).mp hp
      obtain ⟨hne2, hrec⟩ := (analyze_experiment_eq_some_iff e.files p.2).mp hana
      constructor
      · rw [hrec]
        exact hne2
      · rw [hrec]
        exact List.length_pos.mpr hne2

lemma allExperiments_sample :
    allExperiments [⟨"groupA", true,
      [⟨"exp1", true, [⟨"timing-0.txt", mkContent ['1'] ['0']⟩]⟩]⟩] =
      [("groupA", [("exp1", ⟨[1000], 0, none, 1000, 1000, 1⟩)])] := by
  have h1 : analyze_experiment [⟨"timing-0.txt", mkContent ['1'] ['0']⟩] =
      some ⟨[1000], 0, none, 1000, 1000, 1⟩ :=
    analyze_singleton _ 1000 timesOf_single
  have hs : startsWithExp "exp1" = true := by decide
  simp [allExperiments, sortedGroups, groupStep, expsOf, sortedEntries,
    List.insertionSort, List.orderedInsert, expStep, h1, hs,
    List.filterMap_cons]

/-- Witness for C7 (amended) at a text-only experiment directory and a
one-group, one-experiment tree. -/
theorem pipeline_no_error_on_text_tree_witness :
    analyze_experiment_run
        [⟨"timing-0.txt", FContent.text (mkContent ['1'] ['0'])⟩] =
      Except.ok (analyze_experiment
        (asTFiles [⟨"timing-0.txt", FContent.text (mkContent ['1'] ['0'])⟩])) ∧
    (("groupA", [("exp1", (⟨[1000], 0, none, 1000, 1000, 1⟩ : Stats))]) :
        String × List (String × Stats)).2 ≠ [] ∧
    ∀ p ∈ (("groupA", [("exp1", (⟨[1000], 0, none, 1000, 1000, 1⟩ : Stats))]) :
        String × List (String × Stats)).2,
      p.2.times_ms ≠ [] ∧ 1 ≤ p.2.count := by
  refine ⟨?_, ?_⟩
  · have hall : ∀ e ∈ [(⟨"timing-0.txt",
        FContent.text (mkContent ['1'] ['0'])⟩ : FEntry)],
        matchesTimingGlob e.name = true → ∃ cs, e.content = FContent.text cs := by
      intro e he hg
      rw [List.mem_singleton] at he
      subst he
      exact ⟨mkContent ['1'] ['0'], rfl⟩
    exact pipeline_no_error_on_text_tree.1
      [⟨"timing-0.txt", FContent.text (mkContent ['1'] ['0'])⟩] hall
  · exact pipeline_no_error_on_text_tree.2
      [⟨"groupA", true,
        [⟨"exp1", true, [⟨"timing-0.txt", mkContent ['1'] ['0']⟩]⟩]⟩]
      ("groupA", [("exp1", ⟨[1000], 0, none, 1000, 1000, 1⟩)])
      (by rw [allExperiments_sample]; simp)

/-- Claim C9: within a group directory, exactly the subdirectories whose
names start with `exp` are analyzed; every other entry (plain file, or a
directory with another name) contributes nothing to `all_experiments`. -/
theorem only_exp_subdirs (g : GroupEntry)
    (hge : (g.entries.map ExpEntry.name).Nodup) :
    (∀ e ∈ g.entries, ¬(e.isDir = true ∧ startsWithExp e.name = true) →
        e.name ∉ (expsOf g).map Prod.fst) ∧
    ∀ p ∈ expsOf g, ∃ e ∈ g.entries, p.1 = e.name ∧ e.isDir = true ∧
      startsWithExp e.name = true ∧ analyze_experiment e.files = some p.2 := by
  constructor
  · intro e he hnot hcontra
    obtain ⟨p, hp, hpe⟩ := List.mem_map.mp hcontra
    obtain ⟨e', he', hed', hes', hn', hana'⟩ := (mem_expsOf_iff g p).mp hp
    have hee : e' = e := List.inj_on_of_nodup_map hge he' he (by rw [← hn', hpe])
    rw [hee] at hed' hes'
    exact hnot ⟨hed', hes'⟩
  · intro p hp
    obtain ⟨e, he, hed, hes, hn, hana⟩ := (mem_expsOf_iff g p).mp hp
    exact ⟨e, he, hn, hed, hes, hana⟩

/-- Witness for C9: a group with one plain file entry, one non-`exp`
directory and one `exp` directory. -/
theorem only_exp_subdirs_witness :
    (∀ e ∈ (⟨"groupA", true,
        [⟨"notes", false, []⟩, ⟨"data", true, []⟩,
         ⟨"exp1", true, [⟨"timing-0.txt", mkContent ['1'] ['0']⟩]⟩]⟩ :
        GroupEntry).entries,
      ¬(e.isDir = true ∧ startsWithExp e.name = true) →
        e.name ∉ (expsOf ⟨"groupA", true,
          [⟨"notes", false, []⟩, ⟨"data", true, []⟩,
           ⟨"exp1", true, [⟨"timing-0.txt", mkContent ['1'] ['0']⟩]⟩]⟩).map
          Prod.fst) ∧
    ∀ p ∈ expsOf ⟨"groupA", true,
        [⟨"notes", false, []⟩, ⟨"data", true, []⟩,
         ⟨"exp1", true, [⟨"timing-0.txt", mkContent ['1'] ['0']⟩]⟩]⟩,
      ∃ e ∈ (⟨"groupA", true,
          [⟨"notes", false, []⟩, ⟨"data", true, []⟩,
           ⟨"exp1", true, [⟨"timing-0.txt", mkContent ['1'] ['0']⟩]⟩]⟩ :
          GroupEntry).entries,
        p.1 = e.name ∧ e.isDir = true ∧ startsWithExp e.name = true ∧
          analyze_experiment e.files = some p.2 :=
  only_exp_subdirs
    ⟨"groupA", true,
      [⟨"notes", false, []⟩, ⟨"data", true, []⟩,
       ⟨"exp1", true, [⟨"timing-0.txt", mkContent ['1'] ['0']⟩]⟩]⟩
    (by decide)

lemma pairwise_filterMap_of_pairwise {α β : Type} (R : α → α → Prop)
    (S : β → β → Prop) (f : α → Option β)
    (hf : ∀ a b x y, R a b → f a = some x → f b = some y → S x y) :
    ∀ l : List α, l.Pairwise R → (l.filterMap f).Pairwise S := by
  intro l
  induction l with
  | nil =>
    intro
    simp
  | cons a l ih =>
    intro hl
    rw [List.pairwise_cons] at hl
    obtain ⟨ha, hl2⟩ := hl
    rw [List.filterMap_cons]
    cases hfa : f a with
    | none => exact ih hl2
    | some b =>
      refine List.Pairwise.cons ?_ (ih hl2)
      intro y hy
      obtain ⟨c, hc, hfc⟩ := List.mem_filterMap.mp hy
      exact hf a c b y (ha c hc) hfa hfc

lemma groupStep_name (g : GroupEntry) (q : String × List (String × Stats))
    (h : groupStep g = some q) : q.1 = g.name := by
  obtain ⟨-, -, rfl⟩ := (groupStep_eq_some_iff g q).mp h
  rfl

lemma sorted_fst_allExperiments (root : List GroupEntry) :
    ((allExperiments root).map Prod.fst).Sorted (· ≤ ·) := by
  have hpair : (allExperiments root).Pairwise fun p q => p.1 ≤ q.1 := by
    apply pairwise_filterMap_of_pairwise
      (fun a b : GroupEntry => a.name ≤ b.name) _ groupStep
    · intro a b x y hr hx hy
      rw [groupStep_name a x hx, groupStep_name b y hy]
      exact hr
    · exact List.sorted_insertionSort _ root
  exact List.Pairwise.map Prod.fst (fun a b h => h) hpair

lemma sorted_fst_expsOf (g : GroupEntry) :
    ((expsOf g).map Prod.fst).Sorted (· ≤ ·) := by
  have hpair : (expsOf g).Pairwise fun p q => p.1 ≤ q.1 := by
    apply pairwise_filterMap_of_pairwise
      (fun a b : ExpEntry => a.name ≤ b.name) _ expStep
    · intro a b x y hr hx hy
      rw [((expStep_eq_some_iff a x).mp hx).2.2.1,
        ((expStep_eq_some_iff b y).mp hy).2.2.1]
      exact hr
    · exact List.sorted_insertionSort _ g.entries
  exact List.Pairwise.map Prod.fst (fun a b h => h) hpair

/-- Claim C10: the outputs are deterministic functions of the input tree and
traverse groups and experiments in lexicographically sorted name order: the
group-name sequence of `all_experiments` (hence of the per-experiment report)
is sorted, each group's experiment names are sorted, and the summary and both
box plots walk exactly the same group sequence as the labels. -/
theorem outputs_sorted_deterministic (root : List GroupEntry) :
    ((allExperiments root).map Prod.fst).Sorted (· ≤ ·) ∧
    (∀ q ∈ allExperiments root, (q.2.map Prod.fst).Sorted (· ≤ ·)) ∧
    plotLabels root = (reportSeq root).map Prod.fst ∧
    plotLabels root = summaryGroups root ∧
    (spreadData root).length = (plotLabels root).length ∧
    (stdData root).length = (plotLabels root).length := by
  refine ⟨sorted_fst_allExperiments root, ?_, ?_, rfl, ?_, ?_⟩
  · intro q hq
    obtain ⟨g, hg, hgd, hne, heq⟩ := (mem_allExperiments_iff root q).mp hq
    subst heq
    exact sorted_fst_expsOf g
  · simp [plotLabels, reportSeq]
  · simp [spreadData, plotLabels]
  · simp [stdData, plotLabels]

/-- Witness for C10 at a one-group, one-experiment tree. -/
theorem outputs_sorted_deterministic_witness :
    ((allExperiments [⟨"groupA", true,
        [⟨"exp1", true, [⟨"timing-0.txt", mkContent ['1'] ['0']⟩]⟩]⟩]).map
      Prod.fst).Sorted (· ≤ ·) ∧
    (([("exp1", (⟨[1000], 0, none, 1000, 1000, 1⟩ : Stats))].map
      Prod.fst).Sorted (· ≤ ·)) ∧
    plotLabels [⟨"groupA", true,
        [⟨"exp1", true, [⟨"timing-0.txt", mkContent ['1'] ['0']⟩]⟩]⟩] =
      (reportSeq [⟨"groupA", true,
        [⟨"exp1", true, [⟨"timing-0.txt", mkContent ['1'] ['0']⟩]⟩]⟩]).map
        Prod.fst ∧
    plotLabels [⟨"groupA", true,
        [⟨"exp1", true, [⟨"timing-0.txt", mkContent ['1'] ['0']⟩]⟩]⟩] =
      summaryGroups [⟨"groupA", true,
        [⟨"exp1", true, [⟨"timing-0.txt", mkContent ['1'] ['0']⟩]⟩]⟩] := by
  have h := outputs_sorted_deterministic [⟨"groupA", true,
    [⟨"exp1", true, [⟨"timing-0.txt", mkContent ['1'] ['0']⟩]⟩]⟩]
  refine ⟨h.1, ?_, h.2.2.1, h.2.2.2.1⟩
  exact h.2.1 ("groupA", [("exp1", ⟨[1000], 0, none, 1000, 1000, 1⟩)])
    (by rw [allExperiments_sample]; simp)
